import Mathlib

/-!
Verification of the smuthi core against its specification.

The definitions below are shallow embeddings of the Python sources:
* `smuthi/index_conversion.py`  (multipole index bookkeeping),
* `smuthi/coordinates.py`       (contour sampling and z-wavenumber branch),
* `smuthi/particle_coupling.py` (layer-mediated coupling block and matrix).

Python integers are embedded as `ℤ`, floating point numbers as `ℝ`,
complex numbers as `ℂ`.  External special functions (`scipy.special.jv`)
are abstract parameters.  Fallible code returns `Option`/`Except`.
-/

namespace Smuthi

/-! ### index_conversion.py

`multi_to_single_index(tau, l, m, **kwargs)` reads the truncation degrees
from module-level globals (updated from the keyword arguments) and, for
`index_order == 'tlm'`, returns the affine formula below.  We first embed
the pure `'tlm'` formula with the globals resolved to explicit values,
then the stateful wrapper.
-/

/-- `tau_blocksize = m_max * (m_max + 2) + (l_max - m_max) * (2 * m_max + 1)`
from `multi_to_single_index`. -/
def tauBlocksize (lmax mmax : ℤ) : ℤ :=
  mmax * (mmax + 2) + (lmax - mmax) * (2 * mmax + 1)

/-- The `l`-dependent offset accumulated into `n` by `multi_to_single_index`:
`if (l - 1) <= m_max: n += (l-1)*(l-1+2)
 else: n += m_max*(m_max+2) + (l-1-m_max)*(2*m_max+1)`. -/
def lOffset (l mmax : ℤ) : ℤ :=
  if l - 1 ≤ mmax then (l - 1) * (l - 1 + 2)
  else mmax * (mmax + 2) + (l - 1 - mmax) * (2 * mmax + 1)

/-- The value returned by `multi_to_single_index` in the `'tlm'` branch,
with the globals `maximal_multipole_degree` / `maximal_multipole_order`
resolved to `lmax` / `mmax`:
`n = tau * tau_blocksize + offset(l) + m + min(l, m_max)`. -/
def multi_to_single_index (tau l m lmax mmax : ℤ) : ℤ :=
  tau * tauBlocksize lmax mmax + lOffset l mmax + m + min l mmax

/-- `number_of_indices`: `multi_to_single_index(tau=1, l=l_max, m=m_max) + 1`. -/
def number_of_indices (lmax mmax : ℤ) : ℤ :=
  multi_to_single_index 1 lmax mmax lmax mmax + 1

/-- The precondition stated in the docstring of `multi_to_single_index`:
`tau` is 0 or 1, `1 <= l <= l_max`, `|m| <= min(l, m_max)`. -/
def validIdx (tau l m lmax mmax : ℤ) : Prop :=
  (tau = 0 ∨ tau = 1) ∧ 1 ≤ l ∧ l ≤ lmax ∧ |m| ≤ min l mmax

instance (tau l m lmax mmax : ℤ) : Decidable (validIdx tau l m lmax mmax) := by
  unfold validIdx; infer_instance

/-- The set of valid `(tau, l, m)` triples as a finite set. -/
def validTriples (lmax mmax : ℤ) : Finset (ℤ × ℤ × ℤ) :=
  (Finset.Icc 0 1).biUnion fun tau =>
    (Finset.Icc 1 lmax).biUnion fun l =>
      (Finset.Icc (-(min l mmax)) (min l mmax)).image fun m => (tau, l, m)

/-! #### The module-level globals of `index_conversion.py`

`index_order` starts as `'tlm'`; `maximal_multipole_degree` and
`maximal_multipole_order` start as `None`.  Each call first copies any of
the keyword arguments `l_max`, `m_max`, `index_order` into the globals,
then reads the globals.  A keyword argument is itself allowed to be
`None`, hence the nested `Option` in the kwargs record. -/

structure IdxState where
  degree : Option ℤ
  order : Option ℤ
  indexOrder : String
deriving DecidableEq

/-- The globals at module load: both truncations `None`, order `'tlm'`. -/
def initIdxState : IdxState := ⟨none, none, "tlm"⟩

structure IdxKwargs where
  l_max : Option (Option ℤ)
  m_max : Option (Option ℤ)
  indexOrder : Option String
deriving DecidableEq

/-- `if 'l_max' in kwargs: maximal_multipole_degree = kwargs['l_max']` etc. -/
def updState (s : IdxState) (kw : IdxKwargs) : IdxState :=
  { degree := kw.l_max.getD s.degree
    order := kw.m_max.getD s.order
    indexOrder := kw.indexOrder.getD s.indexOrder }

/-- Stateful embedding of `multi_to_single_index`.  Returns the produced
value (`none` when the Python call would not produce an integer: unset
`l_max` global makes the arithmetic raise, and an `index_order` other
than `'tlm'` falls off the end of the function) together with the
updated globals. -/
def multiToSingleIndexCall (tau l m : ℤ) (kw : IdxKwargs) (s : IdxState) :
    Option ℤ × IdxState :=
  let s' := updState s kw
  match s'.degree with
  | none => (none, s')
  | some lmax =>
    let mmax := s'.order.getD lmax
    if s'.indexOrder = "tlm" then
      (some (multi_to_single_index tau l m lmax mmax), s')
    else
      (none, s')

/-! ### coordinates.py -/

/-- `np.linspace(0, 1, num=n, endpoint=True)` over `ℝ`: for `n ≥ 2` the
samples are `j / (n - 1)` for `j = 0, …, n-1`; `num=1` yields `[0.]` and
`num=0` yields `[]`. -/
noncomputable def linspace01 (n : ℕ) : List ℝ :=
  if n ≤ 1 then (List.range n).map fun (_ : ℕ) => (0 : ℝ)
  else (List.range n).map fun (j : ℕ) => (j : ℝ) / ((n : ℝ) - 1)

/-- One segment of `ComplexContour.neff`:
`npoints = abs(w2 - w1) / disc + 1` (a float, truncated to an integer by
`linspace`), then `w1 + linspace(0, 1, npoints, endpoint=True) * (w2 - w1)`. -/
noncomputable def neffSegment (w1 w2 : ℂ) (disc : ℝ) : List ℂ :=
  (linspace01 (⌊Complex.abs (w2 - w1) / disc + 1⌋).toNat).map
    fun (t : ℝ) => w1 + (t : ℂ) * (w2 - w1)

/-- `ComplexContour.neff` with a scalar (uniform) discretization: one
linearly spaced segment per consecutive waypoint pair, concatenated. -/
noncomputable def neff (waypoints : List ℂ) (disc : ℝ) : List ℂ :=
  ((waypoints.zip waypoints.tail).map fun p => neffSegment p.1 p.2 disc).flatten

/-- Principal complex square root (the branch used by `np.sqrt`):
nonnegative real part, and for `z.im = 0`, `z.re < 0` the value `i·√|z.re|`. -/
noncomputable def csqrt (z : ℂ) : ℂ :=
  ⟨Real.sqrt ((Complex.abs z + z.re) / 2),
   (if z.im < 0 then -1 else 1) * Real.sqrt ((Complex.abs z - z.re) / 2)⟩

/-- `k_z`: `kz = np.sqrt(k**2 - k_parallel**2 + 0j)` followed by
`kz = (kz.imag >= 0) * kz + (kz.imag < 0) * (-kz)`. -/
noncomputable def k_z (k_parallel k : ℂ) : ℂ :=
  let kz := csqrt (k ^ 2 - k_parallel ^ 2)
  if 0 ≤ kz.im then kz else -kz

/-! ### particle_coupling.py -/

/-- `np.arctan2(y, x)`, i.e. the argument of `x + i y` (range `(-π, π]`,
with `arctan2 0 0 = 0`, matching `numpy` up to signed zeros). -/
noncomputable def arctan2 (y x : ℝ) : ℝ := Complex.arg ⟨x, y⟩

/-- Euclidean norm of a coordinate list (`np.linalg.norm`). -/
noncomputable def normList (v : List ℝ) : ℝ := Real.sqrt ((v.map fun x => x ^ 2).sum)

/-- `rs2s1 = rs1 - rs2` as the coordinate list `[dx, dy, dz]`. -/
noncomputable def rs2s1 (rs1 rs2 : ℝ × ℝ × ℝ) : List ℝ :=
  [rs1.1 - rs2.1, rs1.2.1 - rs2.2.1, rs1.2.2 - rs2.2.2]

/-- `rhos2s1 = np.linalg.norm(rs2s1[0:1])`: the norm of the one-element
slice `[dx]` of the separation vector (as written in the source). -/
noncomputable def rhos2s1 (rs1 rs2 : ℝ × ℝ × ℝ) : ℝ := normList ((rs2s1 rs1 rs2).take 1)

/-- `phis2s1 = np.arctan2(rs2s1[1], rs2s1[0])`. -/
noncomputable def phis2s1 (rs1 rs2 : ℝ × ℝ × ℝ) : ℝ :=
  arctan2 (rs1.2.1 - rs2.2.1) (rs1.1 - rs2.1)

/-- `np.trapz` on a list of `(x, y)` pairs:
`Σ (x_{i+1} - x_i) * (y_i + y_{i+1}) / 2`. -/
noncomputable def trapzPairs : List (ℂ × ℂ) → ℂ
  | a :: b :: t => (b.1 - a.1) * (a.2 + b.2) / 2 + trapzPairs (b :: t)
  | _ => 0

/-- `np.trapz(y, x=x)` for equally long sample lists. -/
noncomputable def trapz (y x : List ℂ) : ℂ := trapzPairs (x.zip y)

/-- `bessel_full[n2][n1] = bessel_list[abs(m_vec[n1] - m_vec[n2])]`, built
with the outer comprehension over `n2`; evaluated at sample `s` the value
is `jv (|m_vec b - m_vec a|) (kpar s * rho)` where `a` is the first
(outer) and `b` the second (inner) index.  `jv` is `scipy.special.jv`,
kept abstract. -/
noncomputable def besselFull (jv : ℕ → ℂ → ℂ) (mvec : ℕ → ℤ) (kpar : ℕ → ℂ) (rho : ℝ)
    (a b s : ℕ) : ℂ :=
  jv (mvec b - mvec a).natAbs (kpar s * (rho : ℂ))

/-- `jacobi_vector = kpar / (kzis2 * kis2)`. -/
noncomputable def jacobiVector (kpar kzis2 : ℕ → ℂ) (kis2 : ℂ) (s : ℕ) : ℂ :=
  kpar s / (kzis2 s * kis2)

/-- `integrand = bessel_full * jacobi_vector * BeLBe`, entry `(n1, n2)`
at sample `s`. -/
noncomputable def wrIntegrand (jv : ℕ → ℂ → ℂ) (mvec : ℕ → ℤ) (kpar kzis2 : ℕ → ℂ)
    (kis2 : ℂ) (rho : ℝ) (BeLBe : ℕ → ℕ → ℕ → ℂ) (n1 n2 s : ℕ) : ℂ :=
  besselFull jv mvec kpar rho n1 n2 s * jacobiVector kpar kzis2 kis2 s *
    BeLBe n1 n2 s

/-- `integral = np.trapz(integrand, x=kpar, axis=-1)`, entry `(n1, n2)`
with `nk` contour samples. -/
noncomputable def wrIntegral (jv : ℕ → ℂ → ℂ) (mvec : ℕ → ℤ) (kpar kzis2 : ℕ → ℂ)
    (kis2 : ℂ) (rho : ℝ) (BeLBe : ℕ → ℕ → ℕ → ℂ) (nk n1 n2 : ℕ) : ℂ :=
  trapz ((List.range nk).map (wrIntegrand jv mvec kpar kzis2 kis2 rho BeLBe n1 n2))
    ((List.range nk).map kpar)

/-- `m2_minus_m1 = m_vec[np.newaxis].T - m_vec`: entry `(a, b)` holds
`m_vec[a] - m_vec[b]` (the broadcast value; the row index `a` is the
receiver index `n1` of `BeLBe`). -/
noncomputable def m2MinusM1 (mvec : ℕ → ℤ) (a b : ℕ) : ℤ := mvec a - mvec b

/-- Entry `(n1, n2)` of the returned block:
`wr = 4 * (1j)**abs(m2_minus_m1) * np.exp(1j * m2_minus_m1 * phis2s1) * integral`. -/
noncomputable def wrEntry (jv : ℕ → ℂ → ℂ) (mvec : ℕ → ℤ) (kpar kzis2 : ℕ → ℂ)
    (kis2 : ℂ) (rho phi : ℝ) (BeLBe : ℕ → ℕ → ℕ → ℂ) (nk n1 n2 : ℕ) : ℂ :=
  4 * Complex.I ^ (m2MinusM1 mvec n1 n2).natAbs *
    Complex.exp (Complex.I * ((m2MinusM1 mvec n1 n2 : ℤ) : ℂ) * (phi : ℂ)) *
    wrIntegral jv mvec kpar kzis2 kis2 rho BeLBe nk n1 n2

/-- Modelled from the spec: the claimed value of entry `(n1, n2)` —
`4 · i^|m2-m1| · exp(i (m2-m1) φ)` times the trapezoidal quadrature of
`J_|m2-m1|(kpar·ρ) · kpar/(kz·k) · BeLBe`, with `m1` the multipole order
of receiver index `n1` and `m2` that of emitter index `n2`. -/
noncomputable def wrEntrySpec (jv : ℕ → ℂ → ℂ) (mvec : ℕ → ℤ) (kpar kzis2 : ℕ → ℂ)
    (kis2 : ℂ) (rho phi : ℝ) (BeLBe : ℕ → ℕ → ℕ → ℂ) (nk n1 n2 : ℕ) : ℂ :=
  4 * Complex.I ^ (mvec n2 - mvec n1).natAbs *
    Complex.exp (Complex.I * ((mvec n2 - mvec n1 : ℤ) : ℂ) * (phi : ℂ)) *
    trapz ((List.range nk).map fun s =>
        jv (mvec n2 - mvec n1).natAbs (kpar s * (rho : ℂ)) *
          (kpar s / (kzis2 s * kis2)) * BeLBe n1 n2 s)
      ((List.range nk).map kpar)

/-- `layer_mediated_coupling_matrix`: rejects any index arrangement whose
string does not begin with `'s'` (an empty string makes `[0]` itself
raise), otherwise tiles the block function over particle pairs, with the
`s1` (row) particle as receiver:
`wr[s1*b + n1, s2*b + n2] = block(particles[s1], particles[s2])[n1, n2]`. -/
noncomputable def layerMediatedCouplingMatrix (blocksize : ℕ) (particles : List (ℝ × ℝ × ℝ))
    (blockf : (ℝ × ℝ × ℝ) → (ℝ × ℝ × ℝ) → ℕ → ℕ → ℂ)
    (indexArrangement : String) : Except String (ℕ → ℕ → ℂ) :=
  match indexArrangement.data with
  | [] => Except.error "IndexError: string index out of range"
  | c :: _ =>
    if c = 's' then
      Except.ok fun i j =>
        if i < blocksize * particles.length ∧ j < blocksize * particles.length then
          blockf (particles.getD (i / blocksize) (0, 0, 0))
            (particles.getD (j / blocksize) (0, 0, 0))
            (i % blocksize) (j % blocksize)
        else 0
    else Except.error "index arrangement other than \"s...\" are currently not implemented"

/-! ## Theorems -/

/-- `csqrt` on a real argument: `√r` for `r ≥ 0`, `i·√(-r)` for `r < 0`. -/
theorem csqrt_ofReal (r : ℝ) :
    csqrt (r : ℂ) = if 0 ≤ r then ⟨Real.sqrt r, 0⟩ else ⟨0, Real.sqrt (-r)⟩ := by
  unfold csqrt
  by_cases h : 0 ≤ r
  · rw [if_pos h]
    have h1 : (Complex.abs (r : ℂ) + (r : ℂ).re) / 2 = r := by
      simp [Complex.abs_ofReal, abs_of_nonneg h]
    have h2 : (Complex.abs (r : ℂ) - (r : ℂ).re) / 2 = 0 := by
      simp [Complex.abs_ofReal, abs_of_nonneg h]
    rw [h1, h2]
    simp [Complex.ofReal_im]
  · rw [if_neg h]
    push_neg at h
    have h1 : (Complex.abs (r : ℂ) + (r : ℂ).re) / 2 = 0 := by
      simp [Complex.abs_ofReal, abs_of_neg h]
    have h2 : (Complex.abs (r : ℂ) - (r : ℂ).re) / 2 = -r := by
      simp [Complex.abs_ofReal, abs_of_neg h]; ring
    rw [h1, h2]
    simp [Complex.ofReal_im]

/-- C4: for real `k > 0` and real `k_parallel ≥ 0`, `k_z` has nonnegative
imaginary part; it is purely imaginary (with `im ≥ 0`) in the evanescent
regime `k_parallel > k` and real nonnegative in the propagating regime
`k_parallel < k`. -/
theorem k_z_branch_cut (k kpar : ℝ) (hk : 0 < k) (hkp : 0 ≤ kpar) :
    0 ≤ (k_z (kpar : ℂ) (k : ℂ)).im ∧
    (k < kpar →
      (k_z (kpar : ℂ) (k : ℂ)).re = 0 ∧ 0 ≤ (k_z (kpar : ℂ) (k : ℂ)).im) ∧
    (kpar < k →
      (k_z (kpar : ℂ) (k : ℂ)).im = 0 ∧ 0 ≤ (k_z (kpar : ℂ) (k : ℂ)).re) := by
  have hcast : (k : ℂ) ^ 2 - (kpar : ℂ) ^ 2 = ((k ^ 2 - kpar ^ 2 : ℝ) : ℂ) := by
    push_cast; ring
  set d : ℝ := k ^ 2 - kpar ^ 2 with hd
  have hkz : k_z (kpar : ℂ) (k : ℂ) =
      if 0 ≤ d then ⟨Real.sqrt d, 0⟩ else ⟨0, Real.sqrt (-d)⟩ := by
    unfold k_z
    rw [hcast, csqrt_ofReal]
    by_cases h : 0 ≤ d
    · rw [if_pos h]
      simp
    · rw [if_neg h]
      simp [Real.sqrt_nonneg]
  rw [hkz]
  by_cases h : 0 ≤ d
  · rw [if_pos h]
    refine ⟨le_refl 0, fun hlt => absurd h ?_, fun _ => ⟨rfl, Real.sqrt_nonneg d⟩⟩
    have hsq : k ^ 2 < kpar ^ 2 := by nlinarith
    simp only [hd, not_le]
    linarith
  · rw [if_neg h]
    push_neg at h
    refine ⟨Real.sqrt_nonneg (-d), fun _ => ⟨rfl, Real.sqrt_nonneg (-d)⟩,
      fun hlt => absurd h ?_⟩
    have hsq : kpar ^ 2 < k ^ 2 := by nlinarith
    simp only [hd, not_lt]
    linarith

/-- Witness for `k_z_branch_cut` at `k = 1`, `k_parallel = 0`. -/
theorem k_z_branch_cut_witness :
    (0 : ℝ) < 1 ∧ (0 : ℝ) ≤ 0 ∧
    (0 ≤ (k_z ((0 : ℝ) : ℂ) ((1 : ℝ) : ℂ)).im ∧
     ((1 : ℝ) < 0 →
       (k_z ((0 : ℝ) : ℂ) ((1 : ℝ) : ℂ)).re = 0 ∧
       0 ≤ (k_z ((0 : ℝ) : ℂ) ((1 : ℝ) : ℂ)).im) ∧
     ((0 : ℝ) < 1 →
       (k_z ((0 : ℝ) : ℂ) ((1 : ℝ) : ℂ)).im = 0 ∧
       0 ≤ (k_z ((0 : ℝ) : ℂ) ((1 : ℝ) : ℂ)).re)) :=
  ⟨one_pos, le_refl 0, k_z_branch_cut 1 0 one_pos (le_refl 0)⟩

/-- C5: for waypoints `[0, 1]` and uniform step `0.1`, `neff()` returns
exactly the 11 samples `0.0, 0.1, …, 1.0`, endpoints exactly preserved. -/
theorem contour_eleven_samples :
    neff [0, 1] (1 / 10) =
      [0, 1/10, 2/10, 3/10, 4/10, 5/10, 6/10, 7/10, 8/10, 9/10, 1] := by
  have habs : Complex.abs ((1 : ℂ) - 0) = 1 := by simp
  have hn : (⌊Complex.abs ((1 : ℂ) - 0) / ((1 : ℝ) / 10) + 1⌋).toNat = 11 := by
    rw [habs]
    norm_num
    rfl
  unfold neff neffSegment
  simp only [List.zip, List.tail, List.zipWith, List.map, List.flatten, List.append_nil]
  rw [hn]
  unfold linspace01
  norm_num [List.range_succ]

/-- C8 counterexample: `multi_to_single_index` does not fail on the
invalid triple `(tau, l, m) = (0, 1, 2)` under `l_max = m_max = 2`
(`|m| = 2` exceeds `min(l, m_max) = 1`): it silently returns the numeric
index 3, which moreover is the index of the valid triple `(0, 2, -2)`. -/
theorem invalid_triple_returns_index :
    (multiToSingleIndexCall 0 1 2 ⟨some (some 2), some (some 2), none⟩
        initIdxState).1 = some 3 ∧
    ¬ validIdx 0 1 2 2 2 ∧ validIdx 0 2 (-2) 2 2 ∧
    (multiToSingleIndexCall 0 2 (-2) ⟨some (some 2), some (some 2), none⟩
        initIdxState).1 = some 3 := by
  decide

/-- C8 amended: `multi_to_single_index` performs no validation of
`tau`, `l`, `m`.  For any `2 ≤ m_max ≤ l_max` the out-of-range triple
`(0, 1, 2)` is silently mapped to the numeric index 3, colliding with
the valid triple `(0, 2, -2)`. -/
theorem no_precondition_validation (lmax mmax : ℤ) (h2 : 2 ≤ mmax)
    (hml : mmax ≤ lmax) :
    ¬ validIdx 0 1 2 lmax mmax ∧ validIdx 0 2 (-2) lmax mmax ∧
    (multiToSingleIndexCall 0 1 2 ⟨some (some lmax), some (some mmax), none⟩
        initIdxState).1 = some (multi_to_single_index 0 1 2 lmax mmax) ∧
    multi_to_single_index 0 1 2 lmax mmax = 3 ∧
    multi_to_single_index 0 2 (-2) lmax mmax = 3 := by
  have hmin1 : min (1 : ℤ) mmax = 1 := min_eq_left (by linarith)
  have hmin2 : min (2 : ℤ) mmax = 2 := min_eq_left (by linarith)
  refine ⟨?_, ?_, rfl, ?_, ?_⟩
  · intro h
    rcases h with ⟨-, -, -, habs⟩
    rw [hmin1] at habs
    simp [abs] at habs
  · exact ⟨Or.inl rfl, by norm_num, by linarith, by rw [hmin2]; norm_num [abs]⟩
  · unfold multi_to_single_index lOffset
    rw [if_pos (by linarith : (1 : ℤ) - 1 ≤ mmax), hmin1]
    ring
  · unfold multi_to_single_index lOffset
    rw [if_pos (by linarith : (2 : ℤ) - 1 ≤ mmax), hmin2]
    ring

/-- Witness for `no_precondition_validation` at `l_max = m_max = 2`. -/
theorem no_precondition_validation_witness :
    (2 : ℤ) ≤ 2 ∧ (2 : ℤ) ≤ 2 ∧
    (¬ validIdx 0 1 2 2 2 ∧ validIdx 0 2 (-2) 2 2 ∧
     (multiToSingleIndexCall 0 1 2 ⟨some (some 2), some (some 2), none⟩
         initIdxState).1 = some (multi_to_single_index 0 1 2 2 2) ∧
     multi_to_single_index 0 1 2 2 2 = 3 ∧
     multi_to_single_index 0 2 (-2) 2 2 = 3) :=
  ⟨le_refl 2, le_refl 2, no_precondition_validation 2 2 (le_refl 2) (le_refl 2)⟩

/-- C10: the value of `multi_to_single_index` is not determined by the
explicit arguments: the keyword arguments persist in module globals.
Two call sequences whose final calls are identical (`tau=1, l=2, m=1`,
passing only `l_max = 2`) return 14 from a fresh module state but 11
after an earlier call that set `m_max = 1`; and in general any later
call passing only `l_max` reuses the stale global `m_max`. -/
theorem global_truncation_state_leak :
    ((multiToSingleIndexCall 1 2 1 ⟨some (some 2), none, none⟩
        initIdxState).1 = some 14 ∧
     (multiToSingleIndexCall 1 2 1 ⟨some (some 2), none, none⟩
        (multiToSingleIndexCall 1 2 1 ⟨some (some 2), some (some 1), none⟩
          initIdxState).2).1 = some 11 ∧
     (14 : ℤ) ≠ 11) ∧
    ∀ (s : IdxState) (M L tau l m : ℤ), s.order = some M →
      s.indexOrder = "tlm" →
      (multiToSingleIndexCall tau l m ⟨some (some L), none, none⟩ s).1 =
        some (multi_to_single_index tau l m L M) := by
  refine ⟨by decide, fun s M L tau l m hord hio => ?_⟩
  unfold multiToSingleIndexCall updState
  simp [hord, hio]

/-- Witness for the universal part of `global_truncation_state_leak`. -/
theorem global_truncation_state_leak_witness :
    (multiToSingleIndexCall 1 2 1 ⟨some (some 2), none, none⟩
        ⟨some 9, some 1, "tlm"⟩).1 = some (multi_to_single_index 1 2 1 2 1) :=
  global_truncation_state_leak.2 ⟨some 9, some 1, "tlm"⟩ 1 2 1 2 1 rfl rfl

/-- Unfolding `neff` one segment at a time. -/
theorem neff_cons (x y : ℂ) (t : List ℂ) (d : ℝ) :
    neff (x :: y :: t) d = neffSegment x y d ++ neff (y :: t) d := by
  unfold neff
  simp

/-- A segment spanning at least one discretization step ends exactly at
its second waypoint. -/
theorem neffSegment_getLast (a b : ℂ) (d : ℝ) (hd : 0 < d)
    (hlen : d ≤ Complex.abs (b - a)) :
    (neffSegment a b d).getLast? = some b := by
  unfold neffSegment
  set nn := (⌊Complex.abs (b - a) / d + 1⌋).toNat with hnn
  have h2 : 2 ≤ nn := by
    have h1 : (1 : ℝ) ≤ Complex.abs (b - a) / d := (one_le_div hd).mpr hlen
    have : (2 : ℤ) ≤ ⌊Complex.abs (b - a) / d + 1⌋ := by
      apply Int.le_floor.mpr
      push_cast
      linarith
    omega
  obtain ⟨m, hm⟩ : ∃ m, nn = 2 + m := Nat.exists_eq_add_of_le h2
  rw [hm]
  unfold linspace01
  rw [if_neg (by omega)]
  have hrange : List.range (2 + m) = List.range (1 + m) ++ [1 + m] := by
    have h : 2 + m = (1 + m) + 1 := by omega
    rw [h, List.range_succ]
  rw [hrange, List.map_append, List.map_append]
  simp only [List.map_cons, List.map_nil, List.getLast?_concat, Option.some.injEq]
  have hcast : ((1 + m : ℕ) : ℝ) = ((2 + m : ℕ) : ℝ) - 1 := by push_cast; ring
  have hne : ((2 + m : ℕ) : ℝ) - 1 ≠ 0 := by
    have hmn : (0 : ℝ) ≤ (m : ℝ) := Nat.cast_nonneg m
    push_cast
    intro hc
    linarith
  rw [hcast, div_self hne]
  simp

/-- Every segment starts exactly at its first waypoint. -/
theorem neffSegment_head (b c : ℂ) (d : ℝ) (hd : 0 < d) :
    (neffSegment b c d).head? = some b := by
  unfold neffSegment
  set nn := (⌊Complex.abs (c - b) / d + 1⌋).toNat with hnn
  have h1 : 1 ≤ nn := by
    have h0 : (0 : ℝ) ≤ Complex.abs (c - b) / d :=
      div_nonneg (Complex.abs.nonneg _) hd.le
    have : (1 : ℤ) ≤ ⌊Complex.abs (c - b) / d + 1⌋ := by
      apply Int.le_floor.mpr
      push_cast
      linarith
    omega
  obtain ⟨m, hm⟩ : ∃ m, nn = m + 1 := ⟨nn - 1, by omega⟩
  rw [hm]
  unfold linspace01
  rw [List.range_succ_eq_map]
  by_cases hle : m + 1 ≤ 1
  · rw [if_pos hle]
    simp
  · rw [if_neg hle]
    simp

/-- C6 amended: every interior waypoint whose incoming segment spans at
least one discretization step appears (at least) twice in the
concatenation returned by `neff`: as the last sample of one segment and
again, adjacently, as the first sample of the next. -/
theorem interior_waypoint_duplicated (i : ℕ) (w : List ℂ) (d : ℝ)
    (a b c : ℂ) (t : List ℂ) (hd : 0 < d)
    (hdrop : w.drop i = a :: b :: c :: t)
    (hlen : d ≤ Complex.abs (b - a)) :
    ∃ pre post, neff w d = pre ++ b :: b :: post := by
  induction i generalizing w with
  | zero =>
    rw [List.drop_zero] at hdrop
    subst hdrop
    rw [neff_cons, neff_cons]
    obtain ⟨S1, hS1⟩ :=
      List.getLast?_eq_some_iff.mp (neffSegment_getLast a b d hd hlen)
    obtain ⟨S2, hS2⟩ := List.head?_eq_some_iff.mp (neffSegment_head b c d hd)
    refine ⟨S1, S2 ++ neff (c :: t) d, ?_⟩
    rw [hS1, hS2]
    simp
  | succ i ih =>
    match w with
    | [] => simp at hdrop
    | x :: w' =>
      rw [List.drop_succ_cons] at hdrop
      cases w' with
      | nil => simp at hdrop
      | cons y w'' =>
        obtain ⟨pre, post, hpre⟩ := ih (y :: w'') hdrop
        refine ⟨neffSegment x y d ++ pre, post, ?_⟩
        rw [neff_cons, hpre]
        simp

/-- Witness for `interior_waypoint_duplicated`: waypoints `[0, 1, 2]`,
step 1, interior waypoint 1. -/
theorem interior_waypoint_duplicated_witness :
    (0 : ℝ) < 1 ∧ ([0, 1, 2] : List ℂ).drop 0 = [0, 1, 2] ∧
    (1 : ℝ) ≤ Complex.abs ((1 : ℂ) - 0) ∧
    ∃ pre post, neff [0, 1, 2] 1 = pre ++ (1 : ℂ) :: 1 :: post :=
  ⟨one_pos, rfl, by simp,
   interior_waypoint_duplicated 0 [0, 1, 2] 1 0 1 2 [] one_pos rfl (by simp)⟩

/-- C6 counterexample: for waypoints `[0, 1, 2]` and step 1, `neff()`
returns `[0, 1, 1, 2]` — the interior waypoint 1 does not appear exactly
once: positions 1 and 2 both hold it. -/
theorem interior_waypoint_not_unique :
    neff [0, 1, 2] 1 = [0, 1, 1, 2] ∧
    ¬ (∃! i : Fin 4, ([0, 1, 1, 2] : List ℂ).get i = 1) := by
  constructor
  · have habs1 : Complex.abs ((1 : ℂ) - 0) = 1 := by simp
    have habs2 : Complex.abs ((2 : ℂ) - 1) = 1 := by
      norm_num
    have hn1 : (⌊Complex.abs ((1 : ℂ) - 0) / (1 : ℝ) + 1⌋).toNat = 2 := by
      rw [habs1]; norm_num; rfl
    have hn2 : (⌊Complex.abs ((2 : ℂ) - 1) / (1 : ℝ) + 1⌋).toNat = 2 := by
      rw [habs2]; norm_num; rfl
    unfold neff neffSegment
    simp only [List.zip, List.tail, List.zipWith, List.map, List.flatten,
      List.append_nil]
    rw [hn1, hn2]
    unfold linspace01
    norm_num [List.range_succ]
  · rintro ⟨i, hi, hu⟩
    have h1 : (⟨1, by norm_num⟩ : Fin 4) = i := hu ⟨1, by norm_num⟩ rfl
    have h2 : (⟨2, by norm_num⟩ : Fin 4) = i := hu ⟨2, by norm_num⟩ rfl
    rw [← h1] at h2
    simp at h2

/-- C3: `layer_mediated_coupling_block` computes the radial coordinate as
`np.linalg.norm(rs2s1[0:1])` — the norm of the one-element slice `[dx]`,
i.e. `|x1 - x2|`, not `sqrt((x1-x2)^2 + (y1-y2)^2)`.  For the receiver
`(0, 3, 5)` and emitter `(0, 0, 1)` the code yields `ρ = 0` while the
claimed cylindrical radius is 3.  The azimuth, by contrast, is computed
as claimed. -/
theorem rho_drops_y_component :
    rhos2s1 (0, 3, 5) (0, 0, 1) = 0 ∧
    Real.sqrt (((0 : ℝ) - 0) ^ 2 + ((3 : ℝ) - 0) ^ 2) = 3 ∧
    (0 : ℝ) ≠ 3 ∧
    (∀ r1 r2 : ℝ × ℝ × ℝ,
      phis2s1 r1 r2 = arctan2 (r1.2.1 - r2.2.1) (r1.1 - r2.1)) ∧
    (∀ r1 r2 : ℝ × ℝ × ℝ, rhos2s1 r1 r2 = |r1.1 - r2.1|) := by
  refine ⟨?_, ?_, by norm_num, fun r1 r2 => rfl, fun r1 r2 => ?_⟩
  · unfold rhos2s1 normList rs2s1
    norm_num
  · rw [show ((0 : ℝ) - 0) ^ 2 + ((3 : ℝ) - 0) ^ 2 = 3 ^ 2 by norm_num]
    exact Real.sqrt_sq (by norm_num)
  · unfold rhos2s1 normList rs2s1
    simp [Real.sqrt_sq_eq_abs]

/-- Reduction of `layerMediatedCouplingMatrix` on a nonempty arrangement. -/
theorem layerMediatedCouplingMatrix_cons (b : ℕ)
    (particles : List (ℝ × ℝ × ℝ))
    (blockf : (ℝ × ℝ × ℝ) → (ℝ × ℝ × ℝ) → ℕ → ℕ → ℂ) (c : Char)
    (cs : List Char) :
    layerMediatedCouplingMatrix b particles blockf (String.mk (c :: cs)) =
      if c = 's' then
        Except.ok fun i j =>
          if i < b * particles.length ∧ j < b * particles.length then
            blockf (particles.getD (i / b) (0, 0, 0))
              (particles.getD (j / b) (0, 0, 0)) (i % b) (j % b)
          else 0
      else Except.error
        "index arrangement other than \"s...\" are currently not implemented" :=
  rfl

/-- C9: `layer_mediated_coupling_matrix` succeeds exactly when the index
arrangement string begins with `'s'` (otherwise it raises), and in the
supported case entry `(s1*b + n1, s2*b + n2)` of the returned matrix is
the coupling block entry with particle `s1` as receiver and particle `s2`
as emitter. -/
theorem coupling_matrix_blocks (b : ℕ) (particles : List (ℝ × ℝ × ℝ))
    (blockf : (ℝ × ℝ × ℝ) → (ℝ × ℝ × ℝ) → ℕ → ℕ → ℂ) (arr : String) :
    ((∃ M, layerMediatedCouplingMatrix b particles blockf arr = Except.ok M) ↔
      arr.data.head? = some 's') ∧
    (∀ M s1 s2 n1 n2,
      layerMediatedCouplingMatrix b particles blockf arr = Except.ok M →
      s1 < particles.length → s2 < particles.length → n1 < b → n2 < b →
      M (s1 * b + n1) (s2 * b + n2) =
        blockf (particles.getD s1 (0, 0, 0)) (particles.getD s2 (0, 0, 0))
          n1 n2) := by
  obtain ⟨data⟩ := arr
  cases data with
  | nil =>
    refine ⟨⟨fun h => ?_, fun h => by simp at h⟩, fun M s1 s2 n1 n2 hM _ _ _ _ => ?_⟩
    · obtain ⟨M, hM⟩ := h
      exact absurd hM (by simp [layerMediatedCouplingMatrix])
    · exact absurd hM (by simp [layerMediatedCouplingMatrix])
  | cons c cs =>
    by_cases hc : c = 's'
    · subst hc
      constructor
      · exact ⟨fun _ => rfl, fun _ => ⟨_, rfl⟩⟩
      · intro M s1 s2 n1 n2 hM hs1 hs2 hn1 hn2
        have hb : 0 < b :=
          Nat.pos_of_ne_zero (by rintro rfl; exact Nat.not_lt_zero _ hn1)
        have hM' : (layerMediatedCouplingMatrix b particles blockf
            (String.mk ('s' :: cs))) = Except.ok M := hM
        rw [show layerMediatedCouplingMatrix b particles blockf
              (String.mk ('s' :: cs)) =
            Except.ok (fun i j =>
              if i < b * particles.length ∧ j < b * particles.length then
                blockf (particles.getD (i / b) (0, 0, 0))
                  (particles.getD (j / b) (0, 0, 0)) (i % b) (j % b)
              else 0) from rfl] at hM'
        injection hM' with hMeq
        rw [← hMeq]
        have hin : s1 * b + n1 < b * particles.length ∧
            s2 * b + n2 < b * particles.length := by
          constructor
          · calc s1 * b + n1 < s1 * b + b := by omega
              _ = (s1 + 1) * b := by ring
              _ ≤ particles.length * b := Nat.mul_le_mul_right b hs1
              _ = b * particles.length := Nat.mul_comm _ _
          · calc s2 * b + n2 < s2 * b + b := by omega
              _ = (s2 + 1) * b := by ring
              _ ≤ particles.length * b := Nat.mul_le_mul_right b hs2
              _ = b * particles.length := Nat.mul_comm _ _
        simp only [if_pos hin]
        have hdiv1 : (s1 * b + n1) / b = s1 := by
          rw [Nat.mul_comm s1 b, Nat.mul_add_div hb, Nat.div_eq_of_lt hn1]
          omega
        have hdiv2 : (s2 * b + n2) / b = s2 := by
          rw [Nat.mul_comm s2 b, Nat.mul_add_div hb, Nat.div_eq_of_lt hn2]
          omega
        have hmod1 : (s1 * b + n1) % b = n1 := by
          rw [Nat.mul_comm s1 b, Nat.mul_add_mod, Nat.mod_eq_of_lt hn1]
        have hmod2 : (s2 * b + n2) % b = n2 := by
          rw [Nat.mul_comm s2 b, Nat.mul_add_mod, Nat.mod_eq_of_lt hn2]
        rw [hdiv1, hdiv2, hmod1, hmod2]
    · constructor
      · refine ⟨fun h => ?_, fun h => ?_⟩
        · obtain ⟨M, hM⟩ := h
          refine absurd hM ?_
          rw [layerMediatedCouplingMatrix_cons, if_neg hc]
          simp
        · simp only [List.head?_cons, Option.some.injEq] at h
          exact absurd h hc
      · intro M s1 s2 n1 n2 hM _ _ _ _
        refine absurd hM ?_
        rw [layerMediatedCouplingMatrix_cons, if_neg hc]
        simp

/-- Witness for `coupling_matrix_blocks`: one particle, block size 1,
arrangement `"s"`, constant block 7. -/
theorem coupling_matrix_blocks_witness :
    layerMediatedCouplingMatrix 1 [((0 : ℝ), (0 : ℝ), (0 : ℝ))]
        (fun _ _ _ _ => (7 : ℂ)) "s" =
      Except.ok (fun i j => if i < 1 ∧ j < 1 then (7 : ℂ) else 0) ∧
    (fun i j => if i < 1 ∧ j < 1 then (7 : ℂ) else 0) (0 * 1 + 0) (0 * 1 + 0)
      = 7 :=
  ⟨rfl,
   (coupling_matrix_blocks 1 [((0 : ℝ), (0 : ℝ), (0 : ℝ))]
      (fun _ _ _ _ => (7 : ℂ)) "s").2
     (fun i j => if i < 1 ∧ j < 1 then (7 : ℂ) else 0) 0 0 0 0 rfl
     (by norm_num) (by norm_num) (by norm_num) (by norm_num)⟩

/-- C2 amended: entry `(n1, n2)` of the block equals
`4 · i^|m2-m1| · exp(i (m1-m2) φ)` times the trapezoidal quadrature of
`J_|m2-m1|(kpar·ρ) · kpar/(kz·k) · BeLBe` — the phase carries
`m1 - m2` (receiver minus emitter order), not `m2 - m1`. -/
theorem wr_entry_formula (jv : ℕ → ℂ → ℂ) (mvec : ℕ → ℤ) (kpar kzis2 : ℕ → ℂ)
    (kis2 : ℂ) (rho phi : ℝ) (BeLBe : ℕ → ℕ → ℕ → ℂ) (nk n1 n2 : ℕ) :
    wrEntry jv mvec kpar kzis2 kis2 rho phi BeLBe nk n1 n2 =
      4 * Complex.I ^ (mvec n2 - mvec n1).natAbs *
        Complex.exp (Complex.I * ((mvec n1 - mvec n2 : ℤ) : ℂ) * (phi : ℂ)) *
        trapz ((List.range nk).map fun s =>
            jv (mvec n2 - mvec n1).natAbs (kpar s * (rho : ℂ)) *
              (kpar s / (kzis2 s * kis2)) * BeLBe n1 n2 s)
          ((List.range nk).map kpar) := by
  unfold wrEntry wrIntegral wrIntegrand besselFull jacobiVector m2MinusM1
  rw [← Int.natAbs_neg (mvec n1 - mvec n2), neg_sub]

/-- C2 counterexample: with receiver order `m1 = 0` (index 0), emitter
order `m2 = 1` (index 1), azimuth `φ = π/2` (receiver at `(0,1,0)`,
emitter at the origin), constant Bessel/response data and two contour
samples `kpar = 0, 1`, the code produces entry `2` while the claimed
formula `4·i^|m2-m1|·exp(i(m2-m1)φ)·∫` gives `-2`. -/
theorem wr_phase_sign_counterexample :
    rhos2s1 (0, 1, 0) (0, 0, 0) = 0 ∧
    phis2s1 (0, 1, 0) (0, 0, 0) = Real.pi / 2 ∧
    wrEntry (fun _ _ => 1) (fun n => (n : ℤ)) (fun s => (s : ℂ)) (fun _ => 1)
        1 (rhos2s1 (0, 1, 0) (0, 0, 0)) (phis2s1 (0, 1, 0) (0, 0, 0))
        (fun _ _ _ => 1) 2 0 1 = 2 ∧
    wrEntrySpec (fun _ _ => 1) (fun n => (n : ℤ)) (fun s => (s : ℂ)) (fun _ => 1)
        1 (rhos2s1 (0, 1, 0) (0, 0, 0)) (phis2s1 (0, 1, 0) (0, 0, 0))
        (fun _ _ _ => 1) 2 0 1 = -2 ∧
    (2 : ℂ) ≠ -2 := by
  have hrho : rhos2s1 (0, 1, 0) (0, 0, 0) = 0 := by
    unfold rhos2s1 normList rs2s1
    norm_num
  have hphi : phis2s1 (0, 1, 0) (0, 0, 0) = Real.pi / 2 := by
    unfold phis2s1 arctan2
    have h : (⟨(0 : ℝ) - 0, (1 : ℝ) - 0⟩ : ℂ) = Complex.I := by
      norm_num [Complex.ext_iff, Complex.I_re, Complex.I_im]
    rw [h, Complex.arg_I]
  have htr : trapz (List.map (fun s => ((s : ℕ) : ℂ)) (List.range 2))
      (List.map (fun s => ((s : ℕ) : ℂ)) (List.range 2)) = 1 / 2 := by
    show trapzPairs _ = 1 / 2
    norm_num [List.range_succ, trapzPairs]
  have hexpneg : Complex.exp (-(Complex.I * ((Real.pi : ℂ) / 2))) =
      -Complex.I := by
    have h : -(Complex.I * ((Real.pi : ℂ) / 2)) =
        ((-(Real.pi / 2) : ℝ) : ℂ) * Complex.I := by
      push_cast
      ring
    rw [h, Complex.exp_mul_I, ← Complex.ofReal_cos, ← Complex.ofReal_sin]
    norm_num [Real.cos_pi_div_two, Real.sin_pi_div_two]
  have hexppos : Complex.exp (Complex.I * ((Real.pi : ℂ) / 2)) =
      Complex.I := by
    have h : Complex.I * ((Real.pi : ℂ) / 2) =
        ((Real.pi / 2 : ℝ) : ℂ) * Complex.I := by
      push_cast
      ring
    rw [h, Complex.exp_mul_I, ← Complex.ofReal_cos, ← Complex.ofReal_sin]
    norm_num [Real.cos_pi_div_two, Real.sin_pi_div_two]
  refine ⟨hrho, hphi, ?_, ?_, by norm_num⟩
  · rw [hrho, hphi]
    unfold wrEntry wrIntegral wrIntegrand besselFull jacobiVector m2MinusM1
    norm_num
    rw [hexpneg, htr]
    ring_nf
    rw [Complex.I_sq]
    ring
  · rw [hrho, hphi]
    unfold wrEntrySpec
    norm_num
    rw [hexppos, htr]
    ring_nf
    rw [Complex.I_sq]
    ring

/-- The trapezoidal rule over identically vanishing samples is zero. -/
theorem trapzPairs_eq_zero (l : List (ℂ × ℂ)) (h : ∀ p ∈ l, p.2 = 0) :
    trapzPairs l = 0 := by
  induction l with
  | nil => rfl
  | cons a t ih =>
    cases t with
    | nil => rfl
    | cons b t' =>
      have ha : a.2 = 0 := h a (by simp)
      have hb : b.2 = 0 := h b (by simp)
      show (b.1 - a.1) * (a.2 + b.2) / 2 + trapzPairs (b :: t') = 0
      rw [ha, hb, ih fun p hp => h p (List.mem_cons_of_mem a hp)]
      ring

/-- `np.trapz` of a zero integrand vanishes. -/
theorem trapz_eq_zero (y x : List ℂ) (h : ∀ c ∈ y, c = 0) : trapz y x = 0 :=
  trapzPairs_eq_zero _ fun p hp => h p.2 (List.of_mem_zip hp).2

/-- C7: for receiver and emitter at the same lateral position the code's
radial coordinate is 0, and every block entry whose receiver and emitter
multipole orders differ vanishes exactly, because the Bessel factor
`jv(|m2-m1|, 0)` vanishes for nonzero order (property of
`scipy.special.jv`, taken as a hypothesis on the abstract `jv`). -/
theorem coincident_lateral_delta_m_zero (jv : ℕ → ℂ → ℂ) (mvec : ℕ → ℤ)
    (kpar kzis2 : ℕ → ℂ) (kis2 : ℂ) (BeLBe : ℕ → ℕ → ℕ → ℂ)
    (nk n1 n2 : ℕ) (r1 r2 : ℝ × ℝ × ℝ) (hx : r1.1 = r2.1)
    (hJ : ∀ dm : ℕ, dm ≠ 0 → jv dm 0 = 0) (hm : mvec n1 ≠ mvec n2) :
    rhos2s1 r1 r2 = 0 ∧
    wrEntry jv mvec kpar kzis2 kis2 (rhos2s1 r1 r2) (phis2s1 r1 r2)
      BeLBe nk n1 n2 = 0 := by
  have hrho : rhos2s1 r1 r2 = 0 := by
    unfold rhos2s1 normList rs2s1
    simp [hx]
  refine ⟨hrho, ?_⟩
  rw [hrho]
  unfold wrEntry
  have hint : wrIntegral jv mvec kpar kzis2 kis2 0 BeLBe nk n1 n2 = 0 := by
    unfold wrIntegral
    apply trapz_eq_zero
    intro c hc
    rw [List.mem_map] at hc
    obtain ⟨s, -, hs⟩ := hc
    rw [← hs]
    unfold wrIntegrand besselFull
    have hbes : jv (mvec n2 - mvec n1).natAbs (kpar s * ((0 : ℝ) : ℂ)) = 0 := by
      rw [Complex.ofReal_zero, mul_zero]
      apply hJ
      intro habs
      have h0 : mvec n2 - mvec n1 = 0 := Int.natAbs_eq_zero.mp habs
      exact hm (by omega)
    rw [hbes, zero_mul, zero_mul]
  rw [hint, mul_zero]

/-- Witness for `coincident_lateral_delta_m_zero`: coincident positions,
indicator Bessel function, orders 0 and 1. -/
theorem coincident_lateral_delta_m_zero_witness :
    ((0, 0, 0) : ℝ × ℝ × ℝ).1 = ((0, 0, 0) : ℝ × ℝ × ℝ).1 ∧
    (∀ dm : ℕ, dm ≠ 0 →
      (fun (dm : ℕ) (_ : ℂ) => if dm = 0 then (1 : ℂ) else 0) dm 0 = 0) ∧
    ((fun n => (n : ℤ)) 0 ≠ (fun n => (n : ℤ)) 1) ∧
    (rhos2s1 (0, 0, 0) (0, 0, 0) = 0 ∧
     wrEntry (fun (dm : ℕ) (_ : ℂ) => if dm = 0 then (1 : ℂ) else 0)
       (fun n => (n : ℤ)) (fun _ => 0) (fun _ => 1) 1
       (rhos2s1 (0, 0, 0) (0, 0, 0)) (phis2s1 (0, 0, 0) (0, 0, 0))
       (fun _ _ _ => 1) 2 0 1 = 0) :=
  ⟨rfl, fun dm hdm => if_neg hdm, by norm_num,
   coincident_lateral_delta_m_zero
     (fun (dm : ℕ) (_ : ℂ) => if dm = 0 then (1 : ℂ) else 0)
     (fun n => (n : ℤ)) (fun _ => 0) (fun _ => 1) 1 (fun _ _ _ => 1) 2 0 1
     (0, 0, 0) (0, 0, 0) rfl (fun dm hdm => if_neg hdm) (by norm_num)⟩

/-! #### The `'tlm'` index bijection (C1) -/

/-- Splitting off the top of an integer-interval sum. -/
theorem sum_Icc_top (a b : ℤ) (hab : a ≤ b) (f : ℤ → ℤ) :
    ∑ j ∈ Finset.Icc a b, f j = (∑ j ∈ Finset.Icc a (b - 1), f j) + f b := by
  have h1 : Finset.Icc a b = insert b (Finset.Ico a b) :=
    (Finset.Ico_insert_right hab).symm
  have h2 : Finset.Ico a b = Finset.Icc a (b - 1) := by
    ext x
    simp only [Finset.mem_Ico, Finset.mem_Icc]
    omega
  rw [h1, h2, Finset.sum_insert (by simp only [Finset.mem_Icc]; omega)]
  ring

/-- The `l`-offset of `multi_to_single_index` grows by one block of size
`2·min(l, m_max) + 1` per degree. -/
theorem lOffset_succ (l mmax : ℤ) (_hm : 1 ≤ mmax) (hl : 1 ≤ l) :
    lOffset (l + 1) mmax = lOffset l mmax + (2 * min l mmax + 1) := by
  unfold lOffset
  by_cases hc : l ≤ mmax
  · rw [if_pos (by omega), if_pos (by omega), min_eq_left hc]
    ring
  · rw [if_neg (by omega), min_eq_right (by omega)]
    by_cases hc' : l - 1 ≤ mmax
    · rw [if_pos hc']
      have hlm : l = mmax + 1 := by omega
      subst hlm
      ring
    · rw [if_neg hc']
      ring

/-- Closed form of the offset as a sum of per-degree block sizes. -/
theorem lOffset_eq_sum (mmax : ℤ) (hm : 1 ≤ mmax) :
    ∀ l : ℤ, 1 ≤ l →
      lOffset l mmax = ∑ j ∈ Finset.Icc 1 (l - 1), (2 * min j mmax + 1) := by
  intro l
  refine Int.le_induction
    (P := fun l =>
      lOffset l mmax = ∑ j ∈ Finset.Icc 1 (l - 1), (2 * min j mmax + 1))
    ?_ ?_ l
  · show lOffset 1 mmax = ∑ j ∈ Finset.Icc 1 (1 - 1 : ℤ), (2 * min j mmax + 1)
    rw [show (1 : ℤ) - 1 = 0 from rfl, Finset.Icc_eq_empty (by omega),
      Finset.sum_empty]
    unfold lOffset
    rw [if_pos (by omega)]
    ring
  · intro n hn ih
    rw [lOffset_succ n mmax hm hn, ih,
      show n + 1 - 1 = n from by ring, sum_Icc_top 1 n hn]

/-- The offset is nonnegative on the valid range. -/
theorem lOffset_nonneg (l mmax : ℤ) (hm : 1 ≤ mmax) (hl : 1 ≤ l) :
    0 ≤ lOffset l mmax := by
  rw [lOffset_eq_sum mmax hm l hl]
  apply Finset.sum_nonneg
  intro j hj
  rw [Finset.mem_Icc] at hj
  have : (1 : ℤ) ≤ min j mmax := le_min hj.1 hm
  omega

/-- The offset is monotone in the degree. -/
theorem lOffset_mono (l l' mmax : ℤ) (hm : 1 ≤ mmax) (hl : 1 ≤ l)
    (hll : l ≤ l') : lOffset l mmax ≤ lOffset l' mmax := by
  rw [lOffset_eq_sum mmax hm l hl, lOffset_eq_sum mmax hm l' (by omega)]
  apply Finset.sum_le_sum_of_subset_of_nonneg
  · exact Finset.Icc_subset_Icc_right (by omega)
  · intro j hj _
    rw [Finset.mem_Icc] at hj
    have : (1 : ℤ) ≤ min j mmax := le_min hj.1 hm
    omega

/-- The per-polarization block size equals the offset past the top degree. -/
theorem tauBlocksize_eq_lOffset (lmax mmax : ℤ) (hm : 1 ≤ mmax)
    (hml : mmax ≤ lmax) :
    tauBlocksize lmax mmax = lOffset (lmax + 1) mmax := by
  unfold tauBlocksize lOffset
  by_cases hc : lmax + 1 - 1 ≤ mmax
  · rw [if_pos hc]
    have h : lmax = mmax := by omega
    subst h
    ring
  · rw [if_neg hc]
    ring

/-- `number_of_indices` equals twice the per-polarization block size. -/
theorem number_of_indices_eq (lmax mmax : ℤ) (h1 : 1 ≤ lmax) (hm : 1 ≤ mmax)
    (hml : mmax ≤ lmax) :
    number_of_indices lmax mmax = 2 * tauBlocksize lmax mmax := by
  unfold number_of_indices multi_to_single_index
  have hsucc := lOffset_succ lmax mmax hm h1
  have hT := tauBlocksize_eq_lOffset lmax mmax hm hml
  rw [min_eq_right hml] at hsucc ⊢
  omega

/-- Bounds for the within-polarization part of the index. -/
theorem lOffset_part_bounds (l m lmax mmax : ℤ) (hm : 1 ≤ mmax)
    (hml : mmax ≤ lmax) (hl1 : 1 ≤ l) (hl2 : l ≤ lmax)
    (habs : |m| ≤ min l mmax) :
    0 ≤ lOffset l mmax + m + min l mmax ∧
    lOffset l mmax + m + min l mmax < tauBlocksize lmax mmax := by
  have hnn := lOffset_nonneg l mmax hm hl1
  have habs' := abs_le.mp habs
  constructor
  · omega
  · have hsucc := lOffset_succ l mmax hm hl1
    have hmono := lOffset_mono (l + 1) (lmax + 1) mmax hm (by omega) (by omega)
    have hT := tauBlocksize_eq_lOffset lmax mmax hm hml
    omega

/-- Membership in `validTriples` is exactly the docstring precondition. -/
theorem mem_validTriples (p : ℤ × ℤ × ℤ) (lmax mmax : ℤ) :
    p ∈ validTriples lmax mmax ↔ validIdx p.1 p.2.1 p.2.2 lmax mmax := by
  obtain ⟨tau, l, m⟩ := p
  unfold validTriples validIdx
  simp only [Finset.mem_biUnion, Finset.mem_image, Finset.mem_Icc,
    Prod.mk.injEq]
  constructor
  · rintro ⟨tau', htau', l', hl', m', hm', rfl, rfl, rfl⟩
    refine ⟨by omega, hl'.1, hl'.2, abs_le.mpr ⟨by omega, by omega⟩⟩
  · rintro ⟨htau, hl1, hl2, habs⟩
    have habs' := abs_le.mp habs
    exact ⟨tau, by omega, l, ⟨hl1, hl2⟩, m, ⟨by omega, by omega⟩, rfl, rfl, rfl⟩

/-- Injectivity of the `'tlm'` index map on valid triples. -/
theorem multi_to_single_index_injOn (lmax mmax : ℤ) (_h1 : 1 ≤ lmax)
    (hm : 1 ≤ mmax) (hml : mmax ≤ lmax)
    (tau l m tau' l' m' : ℤ)
    (hv : validIdx tau l m lmax mmax) (hv' : validIdx tau' l' m' lmax mmax)
    (heq : multi_to_single_index tau l m lmax mmax =
      multi_to_single_index tau' l' m' lmax mmax) :
    tau = tau' ∧ l = l' ∧ m = m' := by
  obtain ⟨htau, hl1, hl2, habs⟩ := hv
  obtain ⟨htau', hl1', hl2', habs'⟩ := hv'
  have hb := lOffset_part_bounds l m lmax mmax hm hml hl1 hl2 habs
  have hb' := lOffset_part_bounds l' m' lmax mmax hm hml hl1' hl2' habs'
  unfold multi_to_single_index at heq
  have htaueq : tau = tau' := by
    rcases htau with rfl | rfl <;> rcases htau' with rfl | rfl <;> omega
  subst htaueq
  have hreq : lOffset l mmax + m + min l mmax =
      lOffset l' mmax + m' + min l' mmax := by omega
  have hleq : l = l' := by
    by_contra hne
    rcases lt_or_gt_of_ne hne with hlt | hgt
    · have hsucc := lOffset_succ l mmax hm hl1
      have hmono := lOffset_mono (l + 1) l' mmax hm (by omega) (by omega)
      have habs2 := abs_le.mp habs
      have habs2' := abs_le.mp habs'
      omega
    · have hsucc := lOffset_succ l' mmax hm hl1'
      have hmono := lOffset_mono (l' + 1) l mmax hm (by omega) (by omega)
      have habs2 := abs_le.mp habs
      have habs2' := abs_le.mp habs'
      omega
  subst hleq
  exact ⟨rfl, rfl, by omega⟩

/-- The number of valid triples equals `number_of_indices`. -/
theorem validTriples_card (lmax mmax : ℤ) (h1 : 1 ≤ lmax) (hm : 1 ≤ mmax)
    (hml : mmax ≤ lmax) :
    ((validTriples lmax mmax).card : ℤ) = number_of_indices lmax mmax := by
  unfold validTriples
  rw [Finset.card_biUnion]
  · have hinner : ∀ tau : ℤ,
        (((Finset.Icc 1 lmax).biUnion fun l =>
          (Finset.Icc (-(min l mmax)) (min l mmax)).image
            fun m => (tau, l, m)).card : ℤ) = tauBlocksize lmax mmax := by
      intro tau
      rw [Finset.card_biUnion]
      · rw [tauBlocksize_eq_lOffset lmax mmax hm hml,
          lOffset_eq_sum mmax hm (lmax + 1) (by omega),
          show lmax + 1 - 1 = lmax from by ring, Nat.cast_sum]
        apply Finset.sum_congr rfl
        intro l hl
        rw [Finset.mem_Icc] at hl
        rw [Finset.card_image_of_injective _
            (fun m m' hmm => by simpa using hmm),
          Int.card_Icc]
        have hmin : (1 : ℤ) ≤ min l mmax := le_min hl.1 hm
        rw [Int.toNat_of_nonneg (by omega)]
        ring
      · intro l _ l' _ hne
        rw [Finset.disjoint_left]
        rintro ⟨a, b, c⟩ hmem hmem'
        simp only [Finset.mem_image] at hmem hmem'
        obtain ⟨x, -, hx⟩ := hmem
        obtain ⟨y, -, hy⟩ := hmem'
        rw [← hx] at hy
        exact hne (by injection hy with h1 h2; injection h2 with h2 h3; omega)
    rw [Nat.cast_sum]
    rw [Finset.sum_congr rfl fun tau _ => hinner tau]
    rw [Finset.sum_const, Int.card_Icc, number_of_indices_eq lmax mmax h1 hm hml]
    norm_num
  · intro tau _ tau' _ hne
    rw [Finset.disjoint_left]
    rintro ⟨a, b, c⟩ hmem hmem'
    simp only [Finset.mem_biUnion, Finset.mem_image] at hmem hmem'
    obtain ⟨l, -, x, -, hx⟩ := hmem
    obtain ⟨l', -, y, -, hy⟩ := hmem'
    rw [← hx] at hy
    exact hne (by injection hy with h1 h2; omega)

/-- Range bounds of the `'tlm'` index on valid triples. -/
theorem multi_to_single_index_bounds (lmax mmax tau l m : ℤ) (h1 : 1 ≤ lmax)
    (hm : 1 ≤ mmax) (hml : mmax ≤ lmax) (hv : validIdx tau l m lmax mmax) :
    0 ≤ multi_to_single_index tau l m lmax mmax ∧
    multi_to_single_index tau l m lmax mmax < number_of_indices lmax mmax := by
  obtain ⟨htau, hl1, hl2, habs⟩ := hv
  have hb := lOffset_part_bounds l m lmax mmax hm hml hl1 hl2 habs
  have hN := number_of_indices_eq lmax mmax h1 hm hml
  rcases htau with rfl | rfl <;> (unfold multi_to_single_index; omega)

/-- C1: under the `'tlm'` ordering, `multi_to_single_index` maps the valid
triples `(tau, l, m)` bijectively onto `{0, …, N-1}` with
`N = number_of_indices`, which equals the number of valid triples; the
index follows the affine formula with `tau`-major blocks whose
per-degree sizes are `2l+1` for `l ≤ m_max` and `2·m_max+1` beyond. -/
theorem tlm_index_bijection (lmax mmax : ℤ) (h1 : 1 ≤ lmax) (hm : 1 ≤ mmax)
    (hml : mmax ≤ lmax) :
    Set.BijOn
      (fun p : ℤ × ℤ × ℤ => multi_to_single_index p.1 p.2.1 p.2.2 lmax mmax)
      {p | validIdx p.1 p.2.1 p.2.2 lmax mmax}
      {n | 0 ≤ n ∧ n < number_of_indices lmax mmax} ∧
    ((validTriples lmax mmax).card : ℤ) = number_of_indices lmax mmax ∧
    (∀ l, 1 ≤ l → l ≤ lmax →
      lOffset (l + 1) mmax - lOffset l mmax =
        if l ≤ mmax then 2 * l + 1 else 2 * mmax + 1) ∧
    (∀ tau l m, multi_to_single_index tau l m lmax mmax =
      tau * tauBlocksize lmax mmax + lOffset l mmax + m + min l mmax) := by
  refine ⟨⟨?_, ?_, ?_⟩, validTriples_card lmax mmax h1 hm hml, ?_, ?_⟩
  · intro p hp
    exact multi_to_single_index_bounds lmax mmax p.1 p.2.1 p.2.2 h1 hm hml hp
  · rintro ⟨t, l, m⟩ hp ⟨t', l', m'⟩ hq heq
    obtain ⟨e1, e2, e3⟩ :=
      multi_to_single_index_injOn lmax mmax h1 hm hml t l m t' l' m' hp hq heq
    rw [e1, e2, e3]
  · intro n hn
    have hinj : Set.InjOn
        (fun p : ℤ × ℤ × ℤ => multi_to_single_index p.1 p.2.1 p.2.2 lmax mmax)
        ↑(validTriples lmax mmax) := by
      rintro ⟨t, l, m⟩ hp ⟨t', l', m'⟩ hq heq
      rw [Finset.mem_coe, mem_validTriples] at hp hq
      obtain ⟨e1, e2, e3⟩ :=
        multi_to_single_index_injOn lmax mmax h1 hm hml t l m t' l' m' hp hq heq
      rw [e1, e2, e3]
    have hcard := validTriples_card lmax mmax h1 hm hml
    have hN0 : 0 < number_of_indices lmax mmax := by
      have hb := lOffset_part_bounds 1 0 lmax mmax hm hml (le_refl 1) h1
        (by rw [abs_zero]; exact le_min (le_refl 1) hm |>.trans' (by omega))
      have hN := number_of_indices_eq lmax mmax h1 hm hml
      omega
    have himg : Finset.image
        (fun p : ℤ × ℤ × ℤ => multi_to_single_index p.1 p.2.1 p.2.2 lmax mmax)
        (validTriples lmax mmax) =
        Finset.Icc 0 (number_of_indices lmax mmax - 1) := by
      apply Finset.eq_of_subset_of_card_le
      · intro x hx
        rw [Finset.mem_image] at hx
        obtain ⟨p, hp, rfl⟩ := hx
        rw [mem_validTriples] at hp
        have hb := multi_to_single_index_bounds lmax mmax p.1 p.2.1 p.2.2
          h1 hm hml hp
        rw [Finset.mem_Icc]
        omega
      · rw [Finset.card_image_of_injOn hinj, Int.card_Icc]
        omega
    obtain ⟨hn0, hnN⟩ := hn
    have hmem : n ∈ Finset.Icc 0 (number_of_indices lmax mmax - 1) := by
      rw [Finset.mem_Icc]
      omega
    rw [← himg, Finset.mem_image] at hmem
    obtain ⟨p, hp, hfp⟩ := hmem
    exact ⟨p, (mem_validTriples p lmax mmax).mp hp, hfp⟩
  · intro l hl hle
    have hs := lOffset_succ l mmax hm hl
    by_cases h : l ≤ mmax
    · rw [min_eq_left h] at hs
      rw [if_pos h]
      omega
    · rw [min_eq_right (by omega)] at hs
      rw [if_neg h]
      omega
  · intro tau l m
    rfl

/-- Witness for `tlm_index_bijection` at `l_max = 2`, `m_max = 1`. -/
theorem tlm_index_bijection_witness :
    (1 : ℤ) ≤ 2 ∧ (1 : ℤ) ≤ 1 ∧ (1 : ℤ) ≤ 2 ∧
    (Set.BijOn
      (fun p : ℤ × ℤ × ℤ => multi_to_single_index p.1 p.2.1 p.2.2 2 1)
      {p | validIdx p.1 p.2.1 p.2.2 2 1}
      {n | 0 ≤ n ∧ n < number_of_indices 2 1} ∧
     ((validTriples 2 1).card : ℤ) = number_of_indices 2 1) :=
  ⟨by norm_num, le_refl 1, by norm_num,
   ⟨(tlm_index_bijection 2 1 (by norm_num) (le_refl 1) (by norm_num)).1,
    (tlm_index_bijection 2 1 (by norm_num) (le_refl 1) (by norm_num)).2.1⟩⟩

end Smuthi
